import Mathlib

/-!
Shallow embedding of `src/scheduler.c` (a discrete-event CPU-scheduling
simulator).  Machine integers (`int`) are modelled as `Int` together with an
explicit signed 32-bit wraparound `wrap32` applied at every arithmetic site
that can overflow in the C source.  Queues (GLib `GQueue`) are modelled as
`List Process` with the list head as the queue head and `xs ++ [p]` as
"push tail"; `g_queue_sort` (a stable merge sort) is `List.mergeSort`.
-/

namespace Scheduler

/-- `INT_MAX`, the sentinel used by the source for "infinite / not applicable". -/
def INT_MAX : Int := 2147483647

/-- Signed 32-bit wraparound, modelling C `int` addition/subtraction overflow. -/
def wrap32 (x : Int) : Int := (x + 2147483648) % 4294967296 - 2147483648

/-- `struct process` from the source (same field names). -/
structure Process where
  pid : Int
  start : Int
  total : Int
  iofreq : Int
  iodur : Int
  remaining : Int
  last_start : Int
  last_io_start : Int
  rr : Int
deriving DecidableEq, Repr

/-- `process_new`: initializes a process.  The C code leaves `last_start` and
`last_io_start` uninitialized (they are written before being read on every
path); we model them as 0. -/
def process_new (pid start total iofreq iodur rr : Int) : Process :=
  { pid := pid, start := start, total := total, iofreq := iofreq,
    iodur := iodur, remaining := total, last_start := 0,
    last_io_start := 0, rr := rr }

/-- The three ready-queue ordering policies (`FCFS_SORT`, `SJF_SORT`, `SRTF_SORT`). -/
inductive SortAlg where
  | fcfs
  | sjf
  | srtf
deriving DecidableEq, Repr

/-- The six move codes of the source. -/
inductive Move where
  | newToReady
  | readyToRunning
  | runningToTerminated
  | runningToWaiting
  | waitingToReady
  | runningToReady
deriving DecidableEq, Repr

/-- `sort_fcfs` comparator: `ap->start - bp->start`. -/
def sort_fcfs (a b : Process) : Int := a.start - b.start

/-- `sort_sjf` comparator: `ap->total - bp->total`. -/
def sort_sjf (a b : Process) : Int := a.total - b.total

/-- `sort_srtf` comparator: `ap->remaining - bp->remaining`. -/
def sort_srtf (a b : Process) : Int := a.remaining - b.remaining

/-- `g_queue_sort` keeps elements whose comparator result is `≤ 0` in order. -/
def fcfsLe (a b : Process) : Bool := sort_fcfs a b ≤ 0

/-- Boolean order used by the stable sort under `SJF_SORT`. -/
def sjfLe (a b : Process) : Bool := sort_sjf a b ≤ 0

/-- Boolean order used by the stable sort under `SRTF_SORT`. -/
def srtfLe (a b : Process) : Bool := sort_srtf a b ≤ 0

/-- `get_head_start_val` (value 0 stands for the C null-dereference that the
guards in the source make unreachable). -/
def get_head_start_val : List Process → Int
  | [] => 0
  | p :: _ => p.start

/-- `get_head_iofreq_val`. -/
def get_head_iofreq_val : List Process → Int
  | [] => 0
  | p :: _ => p.iofreq

/-- `get_head_iodur`. -/
def get_head_iodur : List Process → Int
  | [] => 0
  | p :: _ => p.iodur

/-- `get_head_remaining_time`. -/
def get_head_remaining_time : List Process → Int
  | [] => 0
  | p :: _ => p.remaining

/-- `get_head_rr_freq`. -/
def get_head_rr_freq : List Process → Int
  | [] => 0
  | p :: _ => p.rr

/-- `get_head_last_start`. -/
def get_head_last_start : List Process → Int
  | [] => 0
  | p :: _ => p.last_start

/-- `get_head_last_io_start`. -/
def get_head_last_io_start : List Process → Int
  | [] => 0
  | p :: _ => p.last_io_start

/-- `get_tail_remaining_time`. -/
def get_tail_remaining_time (q : List Process) : Int :=
  ((q.getLast?).map Process.remaining).getD 0

/-- `get_tail_iofreq_val`. -/
def get_tail_iofreq_val (q : List Process) : Int :=
  ((q.getLast?).map Process.iofreq).getD 0

/-- `get_tail_rr_freq`. -/
def get_tail_rr_freq (q : List Process) : Int :=
  ((q.getLast?).map Process.rr).getD 0

/-- `set_head_last_start`. -/
def set_head_last_start (q : List Process) (v : Int) : List Process :=
  match q with
  | [] => []
  | p :: r => { p with last_start := v } :: r

/-- `set_tail_remaining_time`. -/
def set_tail_remaining_time (q : List Process) (v : Int) : List Process :=
  match q.getLast? with
  | none => q
  | some p => q.dropLast ++ [{ p with remaining := v }]

/-- `set_tail_io_start`. -/
def set_tail_io_start (q : List Process) (v : Int) : List Process :=
  match q.getLast? with
  | none => q
  | some p => q.dropLast ++ [{ p with last_io_start := v }]

/-- `get_next_io_time`: `get_head_last_start(q) + get_head_iofreq_val(q)`
(C `int` addition, hence wrapped). -/
def get_next_io_time (q : List Process) (current_time : Int) : Int :=
  wrap32 (get_head_last_start q + get_head_iofreq_val q)

/-- `move_process`: pop the head of the source queue, push it on the tail of
the destination queue (the source is asserted non-empty in C). -/
def move_process (src dst : List Process) : List Process × List Process :=
  match src with
  | [] => (src, dst)
  | p :: rest => (rest, dst ++ [p])

/-- The re-sort performed at the end of `execute_move` when `must_sort` is set:
only `SJF_SORT` and `SRTF_SORT` sort, `FCFS_SORT` leaves the queue as is. -/
def sortIf (q : List Process) (sort : SortAlg) : List Process :=
  match sort with
  | .fcfs => q
  | .sjf => q.mergeSort sjfLe
  | .srtf => q.mergeSort srtfLe

/-- `execute_move`: move the head of `src` to the tail of `dst`, perform the
per-move bookkeeping, and re-sort the destination when `must_sort` was set
(moves into Ready) and the policy sorts.  Trace-file output is omitted. -/
def execute_move (src dst : List Process) (move : Move) (current_time : Int)
    (sort : SortAlg) : List Process × List Process :=
  let sd := move_process src dst
  match move with
  | .newToReady => (sd.1, sortIf sd.2 sort)
  | .readyToRunning => (sd.1, set_head_last_start sd.2 current_time)
  | .runningToTerminated => (sd.1, set_tail_remaining_time sd.2 0)
  | .runningToWaiting =>
      (sd.1, set_tail_io_start
        (set_tail_remaining_time sd.2
          (wrap32 (get_tail_remaining_time sd.2 - get_tail_iofreq_val sd.2)))
        current_time)
  | .waitingToReady => (sd.1, sortIf sd.2 sort)
  | .runningToReady =>
      (sd.1, sortIf
        (set_tail_remaining_time sd.2
          (wrap32 (get_tail_remaining_time sd.2 - get_tail_rr_freq sd.2)))
        sort)

/-- The five queues handed to `get_next_move` (`all` is the New queue). -/
structure QState where
  all : List Process
  ready : List Process
  running : List Process
  waiting : List Process
  terminated : List Process
deriving DecidableEq, Repr

/-- Raw `all_to_ready` candidate (line 547): head arrival of New, else `INT_MAX`. -/
def cand_all_to_ready (s : QState) : Int :=
  if s.all.isEmpty then INT_MAX else get_head_start_val s.all

/-- Raw `ready_to_running` candidate (line 548): `MAX(current_time, head start)`
when Ready is non-empty and Running is empty, else `INT_MAX`. -/
def cand_ready_to_running (s : QState) (current_time : Int) : Int :=
  if !s.ready.isEmpty && s.running.isEmpty then
    max current_time (get_head_start_val s.ready)
  else INT_MAX

/-- Raw `running_to_waiting` candidate (line 549). -/
def cand_running_to_waiting (s : QState) (current_time : Int) : Int :=
  if !s.running.isEmpty then get_next_io_time s.running current_time
  else INT_MAX

/-- Raw `running_to_terminated` candidate (line 550). -/
def cand_running_to_terminated (s : QState) : Int :=
  if !s.running.isEmpty then
    wrap32 (get_head_remaining_time s.running + get_head_last_start s.running)
  else INT_MAX

/-- Raw `waiting_to_ready` candidate (line 551). -/
def cand_waiting_to_ready (s : QState) : Int :=
  if !s.waiting.isEmpty then
    wrap32 (get_head_last_io_start s.waiting + get_head_iodur s.waiting)
  else INT_MAX

/-- Raw `running_to_ready` candidate (line 552). -/
def cand_running_to_ready (s : QState) : Int :=
  if !s.running.isEmpty then
    wrap32 (get_head_last_start s.running + get_head_rr_freq s.running)
  else INT_MAX

/-- The overflow clamp of lines 555-560: a negative candidate becomes `INT_MAX`. -/
def sanitize (x : Int) : Int := if x < 0 then INT_MAX else x

/-- Clamped `all_to_ready` (line 555). -/
def san_all_to_ready (s : QState) : Int := sanitize (cand_all_to_ready s)

/-- Clamped `ready_to_running` (line 556). -/
def san_ready_to_running (s : QState) (t : Int) : Int :=
  sanitize (cand_ready_to_running s t)

/-- Clamped `running_to_waiting` (line 557). -/
def san_running_to_waiting (s : QState) (t : Int) : Int :=
  sanitize (cand_running_to_waiting s t)

/-- Clamped `running_to_terminated` (line 558). -/
def san_running_to_terminated (s : QState) : Int :=
  sanitize (cand_running_to_terminated s)

/-- Clamped `waiting_to_ready` (line 559). -/
def san_waiting_to_ready (s : QState) : Int := sanitize (cand_waiting_to_ready s)

/-- Clamped `running_to_ready` (line 560). -/
def san_running_to_ready (s : QState) : Int := sanitize (cand_running_to_ready s)

/-- Line 562: the nested `MIN` of the six clamped candidates. -/
def min6 (s : QState) (t : Int) : Int :=
  min (min (min (min (min (san_all_to_ready s) (san_ready_to_running s t))
    (san_running_to_terminated s)) (san_running_to_waiting s t))
    (san_waiting_to_ready s)) (san_running_to_ready s)

/-- Which queue pair `get_next_move` passes to `execute_move` for each move,
rebuilding the queue set. -/
def apply_move (s : QState) (mv : Move) (t : Int) (sort : SortAlg) : QState :=
  match mv with
  | .newToReady =>
      ⟨(execute_move s.all s.ready .newToReady t sort).1,
       (execute_move s.all s.ready .newToReady t sort).2,
       s.running, s.waiting, s.terminated⟩
  | .readyToRunning =>
      ⟨s.all, (execute_move s.ready s.running .readyToRunning t sort).1,
       (execute_move s.ready s.running .readyToRunning t sort).2,
       s.waiting, s.terminated⟩
  | .runningToTerminated =>
      ⟨s.all, s.ready,
       (execute_move s.running s.terminated .runningToTerminated t sort).1,
       s.waiting,
       (execute_move s.running s.terminated .runningToTerminated t sort).2⟩
  | .runningToWaiting =>
      ⟨s.all, s.ready,
       (execute_move s.running s.waiting .runningToWaiting t sort).1,
       (execute_move s.running s.waiting .runningToWaiting t sort).2,
       s.terminated⟩
  | .waitingToReady =>
      ⟨s.all, (execute_move s.waiting s.ready .waitingToReady t sort).2,
       s.running, (execute_move s.waiting s.ready .waitingToReady t sort).1,
       s.terminated⟩
  | .runningToReady =>
      ⟨s.all, (execute_move s.running s.ready .runningToReady t sort).2,
       (execute_move s.running s.ready .runningToReady t sort).1,
       s.waiting, s.terminated⟩

/-- `get_next_move` (lines 530-603): compute the six clamped candidates, take
their minimum, return `none` (C `INVALID_MOVE`) when it is `INT_MAX`, and
otherwise fire the first candidate achieving the minimum in the source's
dispatch order, returning the move, the new current time and the new queues. -/
def get_next_move (s : QState) (current_time : Int) (sort : SortAlg) :
    Option (Move × Int × QState) :=
  let m := min6 s current_time
  if m = INT_MAX then none
  else if m = san_waiting_to_ready s then
    some (.waitingToReady, m, apply_move s .waitingToReady m sort)
  else if m = san_all_to_ready s then
    some (.newToReady, m, apply_move s .newToReady m sort)
  else if m = san_running_to_ready s then
    some (.runningToReady, m, apply_move s .runningToReady m sort)
  else if m = san_running_to_waiting s current_time then
    some (.runningToWaiting, m, apply_move s .runningToWaiting m sort)
  else if m = san_running_to_terminated s then
    some (.runningToTerminated, m, apply_move s .runningToTerminated m sort)
  else if m = san_ready_to_running s current_time then
    some (.readyToRunning, m, apply_move s .readyToRunning m sort)
  else none

/-- The driver loop of `main`, truncated to `n` steps: the list of
`(move, event time)` pairs produced by successive `get_next_move` calls. -/
def runMoves : Nat → QState → Int → SortAlg → List (Move × Int)
  | 0, _, _, _ => []
  | n + 1, s, t, sort =>
    match get_next_move s t sort with
    | none => []
    | some (m, t', s') => (m, t') :: runMoves n s' t' sort

/-- The state and time reached after (at most) `n` driver steps. -/
def runState : Nat → QState → Int → SortAlg → QState × Int
  | 0, s, t, _ => (s, t)
  | n + 1, s, t, sort =>
    match get_next_move s t sort with
    | none => (s, t)
    | some (_, t', s') => runState n s' t' sort

/-- The raw candidate belonging to each move. -/
def cand_of (s : QState) (t : Int) : Move → Int
  | .newToReady => cand_all_to_ready s
  | .readyToRunning => cand_ready_to_running s t
  | .runningToTerminated => cand_running_to_terminated s
  | .runningToWaiting => cand_running_to_waiting s t
  | .waitingToReady => cand_waiting_to_ready s
  | .runningToReady => cand_running_to_ready s

/-- The clamped candidate belonging to each move. -/
def san_of (s : QState) (t : Int) (mv : Move) : Int := sanitize (cand_of s t mv)

/-- The dispatch order of the `else if` chain in `get_next_move`. -/
def tieOrder : List Move :=
  [.waitingToReady, .newToReady, .runningToReady, .runningToWaiting,
   .runningToTerminated, .readyToRunning]

/-- All processes currently present across the five queues. -/
def allProcs (s : QState) : List Process :=
  s.all ++ s.ready ++ s.running ++ s.waiting ++ s.terminated

/-- Field ranges maintained for every process of a running simulation:
the parser clamps `start`/`total` to be non-negative and `iofreq`/`iodur`/`rr`
to be positive (`INT_MAX` when the input was `≤ 0`), and the engine keeps
`remaining` within `[0, total]` and the two timestamps within `[0, INT_MAX]`. -/
def WFp (p : Process) : Prop :=
  0 ≤ p.start ∧ p.start ≤ INT_MAX ∧
  0 ≤ p.total ∧ p.total ≤ INT_MAX ∧
  1 ≤ p.iofreq ∧ p.iofreq ≤ INT_MAX ∧
  1 ≤ p.iodur ∧ p.iodur ≤ INT_MAX ∧
  1 ≤ p.rr ∧ p.rr ≤ INT_MAX ∧
  0 ≤ p.remaining ∧ p.remaining ≤ p.total ∧
  0 ≤ p.last_start ∧ p.last_start ≤ INT_MAX ∧
  0 ≤ p.last_io_start ∧ p.last_io_start ≤ INT_MAX

/-- A process as produced by the parser (`parse_file` clamping) and
`process_new`: `remaining` starts at `total`. -/
def WFinit (p : Process) : Prop :=
  0 ≤ p.start ∧ p.start ≤ INT_MAX ∧
  0 ≤ p.total ∧ p.total ≤ INT_MAX ∧
  1 ≤ p.iofreq ∧ p.iofreq ≤ INT_MAX ∧
  1 ≤ p.iodur ∧ p.iodur ≤ INT_MAX ∧
  1 ≤ p.rr ∧ p.rr ≤ INT_MAX ∧
  p.remaining = p.total ∧
  0 ≤ p.last_start ∧ p.last_start ≤ INT_MAX ∧
  0 ≤ p.last_io_start ∧ p.last_io_start ≤ INT_MAX

/-- A well-formed initial queue set, as `main` builds it before the driver
loop: every parsed process sits in New (sorted by arrival), the other four
queues are empty. -/
def InitState (s : QState) : Prop :=
  s.ready = [] ∧ s.running = [] ∧ s.waiting = [] ∧ s.terminated = [] ∧
  (∀ p ∈ s.all, WFinit p) ∧ s.all.Pairwise (fun a b => a.start ≤ b.start)

/-- The inductive invariant carried along every driver run. -/
structure Inv (s : QState) (t : Int) : Prop where
  t_nonneg : 0 ≤ t
  t_le : t ≤ INT_MAX
  wf : ∀ p ∈ allProcs s, WFp p
  run_le_one : s.running.length ≤ 1
  all_sorted : s.all.Pairwise (fun a b => a.start ≤ b.start)
  all_head : ∀ p rest, s.all = p :: rest → t ≤ p.start
  run_iofreq : ∀ p rest, s.running = p :: rest →
    t ≤ sanitize (wrap32 (p.last_start + p.iofreq))
  run_term : ∀ p rest, s.running = p :: rest →
    t ≤ sanitize (wrap32 (p.remaining + p.last_start))
  run_rr : ∀ p rest, s.running = p :: rest →
    t ≤ sanitize (wrap32 (p.last_start + p.rr))
  term_zero : ∀ p ∈ s.terminated, p.remaining = 0

/-- States reachable by the driver loop: a well-formed initial state at time
`INITIAL_TIME = 0`, then repeated `get_next_move` calls. -/
inductive Reachable (sort : SortAlg) : QState → Int → Prop where
  | init {s : QState} : InitState s → Reachable sort s 0
  | step {s : QState} {t : Int} {m : Move} {t' : Int} {s' : QState} :
      Reachable sort s t → get_next_move s t sort = some (m, t', s') →
      Reachable sort s' t'

/-- The event times of a truncated driver run. -/
def eventTimes (n : Nat) (s : QState) (t : Int) (sort : SortAlg) : List Int :=
  (runMoves n s t sort).map Prod.snd

/-- A list of times is non-decreasing. -/
def nonDecreasing (l : List Int) : Prop := l.Chain' (fun a b => a ≤ b)

/-! Concrete example processes and states used by witnesses and
counterexamples. -/

/-- A single process with no I/O and no preemption (sentinel fields). -/
def exP1 : Process := process_new 1 0 5 INT_MAX INT_MAX INT_MAX

/-- Initial state holding only `exP1`. -/
def exS1 : QState := ⟨[exP1], [], [], [], []⟩

/-- Spec scenario process for C5: `io_interval = 2`, `total_burst = 10`,
`io_duration = 3`, no preemption. -/
def c5proc : Process := process_new 1 0 10 2 3 INT_MAX

/-- Initial state holding only `c5proc`. -/
def c5s0 : QState := ⟨[c5proc], [], [], [], []⟩

/-- C8 boundary process: `io_interval` equals `total_burst`, so the first
I/O boundary coincides with the completion boundary. -/
def c8proc : Process := process_new 1 0 4 4 1 INT_MAX

/-- Initial state holding only `c8proc`. -/
def c8s0 : QState := ⟨[c8proc], [], [], [], []⟩

/-- C9 run, first process: long `io_duration` (100), I/O every 1 unit. -/
def c9p1 : Process := process_new 1 0 10 1 100 INT_MAX

/-- C9 run, second process: short `io_duration` (1), I/O every 2 units. -/
def c9p2 : Process := process_new 2 1 10 2 1 INT_MAX

/-- Initial state for the C9 run: two processes in New, sorted by arrival. -/
def c9s0 : QState := ⟨[c9p1, c9p2], [], [], [], []⟩

/-- A process whose (clamped) arrival time is exactly `INT_MAX`. -/
def c10proc : Process := process_new 1 INT_MAX 5 INT_MAX INT_MAX INT_MAX

/-- Initial state holding only `c10proc`. -/
def c10s0 : QState := ⟨[c10proc], [], [], [], []⟩

/-- Sorted by `total` (the shortest-job order). -/
def sortedByTotal (l : List Process) : Prop :=
  l.Pairwise (fun a b => a.total ≤ b.total)

/-- Sorted by `remaining` (the shortest-remaining order). -/
def sortedByRemaining (l : List Process) : Prop :=
  l.Pairwise (fun a b => a.remaining ≤ b.remaining)

/-- A mid-run state whose running process has the infinite `iofreq` sentinel
and a positive `last_start`, so the raw running→waiting candidate overflows. -/
def c2proc : Process :=
  { pid := 1, start := 0, total := 5, iofreq := INT_MAX, iodur := 3,
    remaining := 3, last_start := 2, last_io_start := 0, rr := INT_MAX }

/-- State holding only `c2proc`, in Running. -/
def c2s : QState := ⟨[], [], [c2proc], [], []⟩

/-- Mid-run state of the C5 scenario: `c5proc` is running (scheduled at 0). -/
def c5mid : QState := ⟨[], [], [c5proc], [], []⟩

/-- State after the running→waiting step of the C5 scenario. -/
def c5aft : QState :=
  ⟨[], [], [], [{ c5proc with remaining := 8, last_io_start := 2 }], []⟩

/-- A running process with infinite `iofreq` whose raw running→waiting
candidate wraps to a negative value. -/
def c3proc : Process :=
  { pid := 1, start := 0, total := 5, iofreq := INT_MAX, iodur := 3,
    remaining := 4, last_start := 1, last_io_start := 0, rr := INT_MAX }

/-- State holding only `c3proc`, in Running. -/
def c3s : QState := ⟨[], [], [c3proc], [], []⟩

/-! ### Arithmetic lemmas about the wraparound and the clamp -/

theorem sanitize_nonneg (x : Int) : 0 ≤ sanitize x := by
  unfold sanitize INT_MAX
  split <;> omega

theorem sanitize_of_nonneg {x : Int} (h : 0 ≤ x) : sanitize x = x := by
  unfold sanitize
  split <;> omega

theorem wrap32_bounds (x : Int) :
    -2147483648 ≤ wrap32 x ∧ wrap32 x ≤ INT_MAX := by
  unfold wrap32 INT_MAX
  omega

theorem wrap32_eq_of_range {x : Int} (h₁ : -2147483648 ≤ x) (h₂ : x ≤ INT_MAX) :
    wrap32 x = x := by
  unfold wrap32 INT_MAX at *
  omega

theorem san_wrap_le (x : Int) : sanitize (wrap32 x) ≤ INT_MAX := by
  unfold sanitize wrap32 INT_MAX
  split <;> omega

/-- For in-range non-negative summands, the clamped wrapped sum is the exact
sum when it fits in `int`, and the `INT_MAX` sentinel when it would overflow. -/
theorem san_wrap_add {a b : Int} (ha : 0 ≤ a) (ha' : a ≤ INT_MAX)
    (hb : 0 ≤ b) (hb' : b ≤ INT_MAX) :
    sanitize (wrap32 (a + b)) = if INT_MAX < a + b then INT_MAX else a + b := by
  unfold sanitize wrap32 INT_MAX at *
  split <;> split at * <;> omega

/-! ### Accessor and executor lemmas -/

theorem get_tail_remaining_concat (q : List Process) (p : Process) :
    get_tail_remaining_time (q ++ [p]) = p.remaining := by
  simp [get_tail_remaining_time, List.getLast?_concat]

theorem get_tail_iofreq_concat (q : List Process) (p : Process) :
    get_tail_iofreq_val (q ++ [p]) = p.iofreq := by
  simp [get_tail_iofreq_val, List.getLast?_concat]

theorem get_tail_rr_concat (q : List Process) (p : Process) :
    get_tail_rr_freq (q ++ [p]) = p.rr := by
  simp [get_tail_rr_freq, List.getLast?_concat]

theorem set_tail_remaining_concat (q : List Process) (p : Process) (v : Int) :
    set_tail_remaining_time (q ++ [p]) v = q ++ [{ p with remaining := v }] := by
  simp [set_tail_remaining_time, List.getLast?_concat]

theorem set_tail_io_start_concat (q : List Process) (p : Process) (v : Int) :
    set_tail_io_start (q ++ [p]) v = q ++ [{ p with last_io_start := v }] := by
  simp [set_tail_io_start, List.getLast?_concat]

theorem exec_newToReady (p : Process) (rest dst : List Process) (t : Int)
    (so : SortAlg) :
    execute_move (p :: rest) dst .newToReady t so = (rest, sortIf (dst ++ [p]) so) := by
  simp [execute_move, move_process]

theorem exec_waitingToReady (p : Process) (rest dst : List Process) (t : Int)
    (so : SortAlg) :
    execute_move (p :: rest) dst .waitingToReady t so =
      (rest, sortIf (dst ++ [p]) so) := by
  simp [execute_move, move_process]

theorem exec_readyToRunning (p : Process) (rest dst : List Process) (t : Int)
    (so : SortAlg) :
    execute_move (p :: rest) dst .readyToRunning t so =
      (rest, set_head_last_start (dst ++ [p]) t) := by
  simp [execute_move, move_process]

theorem exec_runningToTerminated (p : Process) (rest dst : List Process) (t : Int)
    (so : SortAlg) :
    execute_move (p :: rest) dst .runningToTerminated t so =
      (rest, dst ++ [{ p with remaining := 0 }]) := by
  simp [execute_move, move_process, set_tail_remaining_concat]

theorem exec_runningToWaiting (p : Process) (rest dst : List Process) (t : Int)
    (so : SortAlg) :
    execute_move (p :: rest) dst .runningToWaiting t so =
      (rest, dst ++
        [{ p with remaining := wrap32 (p.remaining - p.iofreq), last_io_start := t }]) := by
  simp [execute_move, move_process, set_tail_remaining_concat,
    get_tail_remaining_concat, get_tail_iofreq_concat, set_tail_io_start_concat]

theorem exec_runningToReady (p : Process) (rest dst : List Process) (t : Int)
    (so : SortAlg) :
    execute_move (p :: rest) dst .runningToReady t so =
      (rest, sortIf (dst ++ [{ p with remaining := wrap32 (p.remaining - p.rr) }]) so) := by
  simp [execute_move, move_process, set_tail_remaining_concat,
    get_tail_remaining_concat, get_tail_rr_concat]

theorem mem_sortIf {x : Process} {q : List Process} {so : SortAlg} :
    x ∈ sortIf q so ↔ x ∈ q := by
  cases so <;> simp [sortIf]

theorem length_sortIf (q : List Process) (so : SortAlg) :
    (sortIf q so).length = q.length := by
  cases so <;> simp [sortIf]

/-! ### Candidate characterization lemmas -/

theorem sanitize_INT_MAX : sanitize INT_MAX = INT_MAX := by
  unfold sanitize INT_MAX
  omega

theorem san_all_nil {s : QState} (h : s.all = []) :
    san_all_to_ready s = INT_MAX := by
  simp [san_all_to_ready, cand_all_to_ready, h, sanitize_INT_MAX]

theorem san_all_cons {s : QState} {p : Process} {rest : List Process}
    (h : s.all = p :: rest) : san_all_to_ready s = sanitize p.start := by
  simp [san_all_to_ready, cand_all_to_ready, h, get_head_start_val]

theorem san_r2run_of_running {s : QState} {t : Int} (h : s.running ≠ []) :
    san_ready_to_running s t = INT_MAX := by
  simp [san_ready_to_running, cand_ready_to_running, List.isEmpty_iff, h,
    sanitize_INT_MAX]

theorem san_r2run_of_ready_nil {s : QState} {t : Int} (h : s.ready = []) :
    san_ready_to_running s t = INT_MAX := by
  simp [san_ready_to_running, cand_ready_to_running, h, sanitize_INT_MAX]

theorem san_r2run_cons {s : QState} {t : Int} {p : Process} {rest : List Process}
    (h : s.ready = p :: rest) (h2 : s.running = []) :
    san_ready_to_running s t = sanitize (max t p.start) := by
  simp [san_ready_to_running, cand_ready_to_running, h, h2, get_head_start_val]

theorem san_r2w_nil {s : QState} {t : Int} (h : s.running = []) :
    san_running_to_waiting s t = INT_MAX := by
  simp [san_running_to_waiting, cand_running_to_waiting, h, sanitize_INT_MAX]

theorem san_r2w_cons {s : QState} {t : Int} {p : Process} {rest : List Process}
    (h : s.running = p :: rest) :
    san_running_to_waiting s t = sanitize (wrap32 (p.last_start + p.iofreq)) := by
  simp [san_running_to_waiting, cand_running_to_waiting, h, get_next_io_time,
    get_head_last_start, get_head_iofreq_val]

theorem san_r2t_nil {s : QState} (h : s.running = []) :
    san_running_to_terminated s = INT_MAX := by
  simp [san_running_to_terminated, cand_running_to_terminated, h, sanitize_INT_MAX]

theorem san_r2t_cons {s : QState} {p : Process} {rest : List Process}
    (h : s.running = p :: rest) :
    san_running_to_terminated s = sanitize (wrap32 (p.remaining + p.last_start)) := by
  simp [san_running_to_terminated, cand_running_to_terminated, h,
    get_head_remaining_time, get_head_last_start]

theorem san_w2r_nil {s : QState} (h : s.waiting = []) :
    san_waiting_to_ready s = INT_MAX := by
  simp [san_waiting_to_ready, cand_waiting_to_ready, h, sanitize_INT_MAX]

theorem san_w2r_cons {s : QState} {p : Process} {rest : List Process}
    (h : s.waiting = p :: rest) :
    san_waiting_to_ready s = sanitize (wrap32 (p.last_io_start + p.iodur)) := by
  simp [san_waiting_to_ready, cand_waiting_to_ready, h,
    get_head_last_io_start, get_head_iodur]

theorem san_r2r_nil {s : QState} (h : s.running = []) :
    san_running_to_ready s = INT_MAX := by
  simp [san_running_to_ready, cand_running_to_ready, h, sanitize_INT_MAX]

theorem san_r2r_cons {s : QState} {p : Process} {rest : List Process}
    (h : s.running = p :: rest) :
    san_running_to_ready s = sanitize (wrap32 (p.last_start + p.rr)) := by
  simp [san_running_to_ready, cand_running_to_ready, h,
    get_head_last_start, get_head_rr_freq]

/-! ### Lemmas about the minimum of the six candidates -/

theorem min6_le_all (s : QState) (t : Int) : min6 s t ≤ san_all_to_ready s := by
  unfold min6
  omega

theorem min6_le_r2run (s : QState) (t : Int) :
    min6 s t ≤ san_ready_to_running s t := by
  unfold min6
  omega

theorem min6_le_r2t (s : QState) (t : Int) :
    min6 s t ≤ san_running_to_terminated s := by
  unfold min6
  omega

theorem min6_le_r2w (s : QState) (t : Int) :
    min6 s t ≤ san_running_to_waiting s t := by
  unfold min6
  omega

theorem min6_le_w2r (s : QState) (t : Int) : min6 s t ≤ san_waiting_to_ready s := by
  unfold min6
  omega

theorem min6_le_r2r (s : QState) (t : Int) : min6 s t ≤ san_running_to_ready s := by
  unfold min6
  omega

theorem min6_choice (s : QState) (t : Int) :
    min6 s t = san_all_to_ready s ∨ min6 s t = san_ready_to_running s t ∨
    min6 s t = san_running_to_terminated s ∨ min6 s t = san_running_to_waiting s t ∨
    min6 s t = san_waiting_to_ready s ∨ min6 s t = san_running_to_ready s := by
  unfold min6
  omega

theorem min6_nonneg (s : QState) (t : Int) : 0 ≤ min6 s t := by
  have h1 := sanitize_nonneg (cand_all_to_ready s)
  have h2 := sanitize_nonneg (cand_ready_to_running s t)
  have h3 := sanitize_nonneg (cand_running_to_terminated s)
  have h4 := sanitize_nonneg (cand_running_to_waiting s t)
  have h5 := sanitize_nonneg (cand_waiting_to_ready s)
  have h6 := sanitize_nonneg (cand_running_to_ready s)
  unfold min6 san_all_to_ready san_ready_to_running san_running_to_terminated
    san_running_to_waiting san_waiting_to_ready san_running_to_ready
  omega

/-! ### Inversion of `get_next_move` -/

theorem gnm_some_inv {s : QState} {t : Int} {so : SortAlg} {m : Move} {t' : Int}
    {s' : QState} (h : get_next_move s t so = some (m, t', s')) :
    t' = min6 s t ∧ min6 s t ≠ INT_MAX ∧ min6 s t = san_of s t m ∧
      s' = apply_move s m t' so := by
  unfold get_next_move at h
  simp only [] at h
  split_ifs at h with h1 h2 h3 h4 h5 h6 h7 <;>
    simp only [Option.some.injEq, Prod.mk.injEq] at h
  all_goals first
    | (obtain ⟨hm, ht, hs⟩ := h
       subst hm
       subst ht
       subst hs
       simp_all [san_of, cand_of, san_waiting_to_ready, san_all_to_ready,
         san_running_to_ready, san_running_to_waiting, san_running_to_terminated,
         san_ready_to_running])
    | exact absurd h (by simp)

theorem gnm_none_iff {s : QState} {t : Int} {so : SortAlg} :
    get_next_move s t so = none ↔ min6 s t = INT_MAX := by
  constructor
  · intro h
    unfold get_next_move at h
    simp only [] at h
    split_ifs at h with h1 h2 h3 h4 h5 h6 h7 <;>
      first
        | exact h1
        | (rcases min6_choice s t with hc | hc | hc | hc | hc | hc <;> simp_all)
  · intro h
    unfold get_next_move
    simp [h]

/-! ### Claim C1 -/

/-- C1: whenever the minimum finite candidate event time exists (possibly
achieved by several candidates simultaneously), `get_next_move` fires exactly
the first candidate achieving that minimum in the fixed dispatch order
waiting→ready, new→ready, running→ready (preemption), running→waiting,
running→terminated, ready→running — for every queue state, current time and
policy. -/
theorem C1_tie_break_order (s : QState) (t : Int) (so : SortAlg)
    (h : min6 s t ≠ INT_MAX) :
    (get_next_move s t so).map (fun r => r.1) =
      tieOrder.find? (fun mv => decide (min6 s t = san_of s t mv)) := by
  unfold get_next_move
  simp only []
  split_ifs with h1 h2 h3 h4 h5 h6 h7
  · exact absurd h1 h
  · simp only [Option.map_some', tieOrder, List.find?, san_of, cand_of]
    rw [decide_eq_true (by exact h2)]
  · simp only [Option.map_some', tieOrder, List.find?, san_of, cand_of]
    rw [decide_eq_false (by exact h2), decide_eq_true (by exact h3)]
  · simp only [Option.map_some', tieOrder, List.find?, san_of, cand_of]
    rw [decide_eq_false (by exact h2), decide_eq_false (by exact h3),
      decide_eq_true (by exact h4)]
  · simp only [Option.map_some', tieOrder, List.find?, san_of, cand_of]
    rw [decide_eq_false (by exact h2), decide_eq_false (by exact h3),
      decide_eq_false (by exact h4), decide_eq_true (by exact h5)]
  · simp only [Option.map_some', tieOrder, List.find?, san_of, cand_of]
    rw [decide_eq_false (by exact h2), decide_eq_false (by exact h3),
      decide_eq_false (by exact h4), decide_eq_false (by exact h5),
      decide_eq_true (by exact h6)]
  · simp only [Option.map_some', tieOrder, List.find?, san_of, cand_of]
    rw [decide_eq_false (by exact h2), decide_eq_false (by exact h3),
      decide_eq_false (by exact h4), decide_eq_false (by exact h5),
      decide_eq_false (by exact h6), decide_eq_true (by exact h7)]
  · exfalso
    rcases min6_choice s t with hc | hc | hc | hc | hc | hc
    · exact absurd hc h3
    · exact absurd hc h7
    · exact absurd hc h6
    · exact absurd hc h5
    · exact absurd hc h2
    · exact absurd hc h4

/-- Witness for C1 at a concrete state: one process in New, time 0. -/
theorem C1_tie_break_order_witness :
    min6 exS1 0 ≠ INT_MAX ∧
      (get_next_move exS1 0 .fcfs).map (fun r => r.1) =
        tieOrder.find? (fun mv => decide (min6 exS1 0 = san_of exS1 0 mv)) :=
  ⟨by decide, C1_tie_break_order exS1 0 .fcfs (by decide)⟩

/-! ### Bounds on the clamped candidates and length bookkeeping -/

theorem IM_eq : INT_MAX = 2147483647 := rfl

theorem san_r2w_le (s : QState) (t : Int) :
    san_running_to_waiting s t ≤ INT_MAX := by
  cases hw : s.running with
  | nil => rw [san_r2w_nil hw]
  | cons p rest => rw [san_r2w_cons hw]; exact san_wrap_le _

theorem san_r2t_le (s : QState) : san_running_to_terminated s ≤ INT_MAX := by
  cases hw : s.running with
  | nil => rw [san_r2t_nil hw]
  | cons p rest => rw [san_r2t_cons hw]; exact san_wrap_le _

theorem san_w2r_le (s : QState) : san_waiting_to_ready s ≤ INT_MAX := by
  cases hw : s.waiting with
  | nil => rw [san_w2r_nil hw]
  | cons p rest => rw [san_w2r_cons hw]; exact san_wrap_le _

theorem san_r2r_le (s : QState) : san_running_to_ready s ≤ INT_MAX := by
  cases hw : s.running with
  | nil => rw [san_r2r_nil hw]
  | cons p rest => rw [san_r2r_cons hw]; exact san_wrap_le _

theorem san_all_le {s : QState} (hwf : ∀ p ∈ s.all, WFp p) :
    san_all_to_ready s ≤ INT_MAX := by
  cases hw : s.all with
  | nil => rw [san_all_nil hw]
  | cons p rest =>
      rw [san_all_cons hw]
      have hp : WFp p := hwf p (by rw [hw]; exact List.mem_cons_self p rest)
      obtain ⟨h1, h2, _⟩ := hp
      rw [sanitize_of_nonneg h1]
      exact h2

theorem san_r2run_le {s : QState} {t : Int} (hwf : ∀ p ∈ s.ready, WFp p)
    (ht : t ≤ INT_MAX) : san_ready_to_running s t ≤ INT_MAX := by
  cases hw : s.ready with
  | nil => rw [san_r2run_of_ready_nil hw]
  | cons p rest =>
      cases hrun : s.running with
      | cons q qrest => rw [san_r2run_of_running (by rw [hrun]; simp)]
      | nil =>
          rw [san_r2run_cons hw hrun]
          have hp : WFp p := hwf p (by rw [hw]; exact List.mem_cons_self p rest)
          obtain ⟨h1, h2, _⟩ := hp
          rw [sanitize_of_nonneg (le_max_of_le_right h1)]
          exact max_le ht h2

theorem length_set_head_last_start (q : List Process) (v : Int) :
    (set_head_last_start q v).length = q.length := by
  cases q <;> simp [set_head_last_start]

theorem length_set_tail_remaining (q : List Process) (v : Int) :
    (set_tail_remaining_time q v).length = q.length := by
  induction q using List.reverseRecOn with
  | nil => rfl
  | append_singleton l a _ => simp [set_tail_remaining_concat]

theorem length_set_tail_io_start (q : List Process) (v : Int) :
    (set_tail_io_start q v).length = q.length := by
  induction q using List.reverseRecOn with
  | nil => rfl
  | append_singleton l a _ => simp [set_tail_io_start_concat]

theorem length_exec (src dst : List Process) (mv : Move) (t : Int)
    (so : SortAlg) :
    (execute_move src dst mv t so).1.length +
      (execute_move src dst mv t so).2.length = src.length + dst.length := by
  cases src with
  | nil =>
      cases mv <;>
        simp [execute_move, move_process, length_sortIf,
          length_set_head_last_start, length_set_tail_remaining,
          length_set_tail_io_start]
  | cons p rest =>
      cases mv <;>
        simp [exec_newToReady, exec_readyToRunning, exec_runningToTerminated,
          exec_runningToWaiting, exec_waitingToReady, exec_runningToReady,
          length_sortIf, length_set_head_last_start] <;>
        omega

theorem length_apply_move (s : QState) (mv : Move) (t : Int) (so : SortAlg) :
    (allProcs (apply_move s mv t so)).length = (allProcs s).length := by
  cases mv with
  | newToReady =>
      have h := length_exec s.all s.ready .newToReady t so
      simp only [apply_move, allProcs, List.length_append]
      omega
  | readyToRunning =>
      have h := length_exec s.ready s.running .readyToRunning t so
      simp only [apply_move, allProcs, List.length_append]
      omega
  | runningToTerminated =>
      have h := length_exec s.running s.terminated .runningToTerminated t so
      simp only [apply_move, allProcs, List.length_append]
      omega
  | runningToWaiting =>
      have h := length_exec s.running s.waiting .runningToWaiting t so
      simp only [apply_move, allProcs, List.length_append]
      omega
  | waitingToReady =>
      have h := length_exec s.waiting s.ready .waitingToReady t so
      simp only [apply_move, allProcs, List.length_append]
      omega
  | runningToReady =>
      have h := length_exec s.running s.ready .runningToReady t so
      simp only [apply_move, allProcs, List.length_append]
      omega

/-! ### Claim C2 -/

/-- C2: the running→waiting candidate is the `INT_MAX` sentinel when Running
is empty; for a well-formed running head it is non-sentinel exactly when its
`io_interval` is finite and the sum `last_scheduled_at + io_interval` stays
below `INT_MAX`, in which case it equals that sum; and with the infinite
`io_interval` sentinel the running→waiting transition is never selected. -/
theorem C2_running_to_waiting_cand (s : QState) (t : Int) (so : SortAlg) :
    (s.running = [] → san_running_to_waiting s t = INT_MAX) ∧
    (∀ p rest, s.running = p :: rest → WFp p →
      (san_running_to_waiting s t ≠ INT_MAX ↔
        p.iofreq ≠ INT_MAX ∧ p.last_start + p.iofreq < INT_MAX)) ∧
    (∀ p rest, s.running = p :: rest → WFp p →
      san_running_to_waiting s t ≠ INT_MAX →
      san_running_to_waiting s t = p.last_start + p.iofreq) ∧
    (∀ p rest, s.running = p :: rest → WFp p → p.iofreq = INT_MAX →
      ∀ m t' s', get_next_move s t so = some (m, t', s') →
        m ≠ .runningToWaiting) := by
  refine ⟨fun h => san_r2w_nil h, ?_, ?_, ?_⟩
  · intro p rest hr hwf
    obtain ⟨_, _, _, _, hf1, hf2, _, _, _, _, _, _, hl1, hl2, _, _⟩ := hwf
    rw [san_r2w_cons hr, san_wrap_add hl1 hl2 (by omega) hf2]
    simp only [IM_eq] at *
    split_ifs <;> constructor <;> intro hx <;> omega
  · intro p rest hr hwf hne
    obtain ⟨_, _, _, _, hf1, hf2, _, _, _, _, _, _, hl1, hl2, _, _⟩ := hwf
    rw [san_r2w_cons hr, san_wrap_add hl1 hl2 (by omega) hf2] at hne ⊢
    simp only [IM_eq] at *
    split_ifs at hne ⊢ with hc
    · exact absurd rfl hne
    · rfl
  · intro p rest hr hwf hinf m t' s' hsome heq
    obtain ⟨_, _, _, _, hf1, hf2, _, _, _, _, _, _, hl1, hl2, _, _⟩ := hwf
    obtain ⟨ht', hne, hmin, _⟩ := gnm_some_inv hsome
    subst heq
    have hmin' : min6 s t = san_running_to_waiting s t := hmin
    rw [san_r2w_cons hr, san_wrap_add hl1 hl2 (by omega) hf2] at hmin'
    simp only [IM_eq] at *
    split_ifs at hmin' <;> omega

/-- Witness for C2 at a concrete mid-run state whose running process has the
infinite `io_interval` sentinel. -/
theorem C2_running_to_waiting_cand_witness :
    c2s.running = [c2proc] ∧ WFp c2proc ∧ c2proc.iofreq = INT_MAX ∧
    get_next_move c2s 2 .fcfs =
      some (.runningToTerminated, 5,
        ⟨[], [], [], [], [{ c2proc with remaining := 0 }]⟩) ∧
    Move.runningToTerminated ≠ Move.runningToWaiting :=
  ⟨rfl, by unfold WFp; decide, rfl, by decide,
    (C2_running_to_waiting_cand c2s 2 .fcfs).2.2.2 c2proc [] rfl
      (by unfold WFp; decide) rfl .runningToTerminated 5
      ⟨[], [], [], [], [{ c2proc with remaining := 0 }]⟩ (by decide)⟩

/-! ### Claim C3 -/

/-- C3: a raw candidate event time that is negative (signed 32-bit wraparound
of the sentinel additions) is replaced by the `INT_MAX` sentinel before
selection; consequently the returned event time is never negative and an
overflowed candidate is never the transition that fires. -/
theorem C3_overflow_clamped (s : QState) (t : Int) (so : SortAlg) :
    (∀ mv, cand_of s t mv < 0 → san_of s t mv = INT_MAX) ∧
    (∀ m t' s', get_next_move s t so = some (m, t', s') → 0 ≤ t') ∧
    (∀ mv, cand_of s t mv < 0 →
      ∀ m t' s', get_next_move s t so = some (m, t', s') → m ≠ mv) := by
  refine ⟨?_, ?_, ?_⟩
  · intro mv h
    simp [san_of, sanitize, h]
  · intro m t' s' h
    obtain ⟨ht', _, _, _⟩ := gnm_some_inv h
    rw [ht']
    exact min6_nonneg s t
  · intro mv hneg m t' s' h heq
    subst heq
    obtain ⟨_, hne, hmin, _⟩ := gnm_some_inv h
    exact hne (hmin.trans (by simp [san_of, sanitize, hneg]))

/-- Witness for C3 at a concrete state with an overflowed running→waiting
candidate: the clamp sends it to `INT_MAX` and it does not fire. -/
theorem C3_overflow_clamped_witness :
    cand_of c3s 1 .runningToWaiting < 0 ∧
    get_next_move c3s 1 .fcfs =
      some (.runningToTerminated, 5,
        ⟨[], [], [], [], [{ c3proc with remaining := 0 }]⟩) ∧
    san_of c3s 1 .runningToWaiting = INT_MAX ∧
    (0 : Int) ≤ 5 ∧ Move.runningToTerminated ≠ Move.runningToWaiting :=
  ⟨by decide, by decide,
    (C3_overflow_clamped c3s 1 .fcfs).1 .runningToWaiting (by decide),
    (C3_overflow_clamped c3s 1 .fcfs).2.1 .runningToTerminated 5
      ⟨[], [], [], [], [{ c3proc with remaining := 0 }]⟩ (by decide),
    (C3_overflow_clamped c3s 1 .fcfs).2.2 .runningToWaiting (by decide)
      .runningToTerminated 5
      ⟨[], [], [], [], [{ c3proc with remaining := 0 }]⟩ (by decide)⟩

/-! ### Restrictions of a state-wide well-formedness fact to single queues -/

theorem wf_all_sub {s : QState} (hwf : ∀ p ∈ allProcs s, WFp p) :
    ∀ p ∈ s.all, WFp p :=
  fun p hp => hwf p (by simp [allProcs, hp])

theorem wf_ready_sub {s : QState} (hwf : ∀ p ∈ allProcs s, WFp p) :
    ∀ p ∈ s.ready, WFp p :=
  fun p hp => hwf p (by simp [allProcs, hp])

theorem wf_running_sub {s : QState} (hwf : ∀ p ∈ allProcs s, WFp p) :
    ∀ p ∈ s.running, WFp p :=
  fun p hp => hwf p (by simp [allProcs, hp])

theorem wf_waiting_sub {s : QState} (hwf : ∀ p ∈ allProcs s, WFp p) :
    ∀ p ∈ s.waiting, WFp p :=
  fun p hp => hwf p (by simp [allProcs, hp])

theorem wf_terminated_sub {s : QState} (hwf : ∀ p ∈ allProcs s, WFp p) :
    ∀ p ∈ s.terminated, WFp p :=
  fun p hp => hwf p (by simp [allProcs, hp])

/-! ### Claim C4 -/

/-- C4: a single `get_next_move` call on a well-formed state either reports
completion — exactly when all six clamped candidates are the infinite
sentinel — or fires exactly one transition: it returns the minimum candidate
time, the new state is the one transition applied, and the total number of
processes across the five queues is unchanged. -/
theorem C4_advance_total (s : QState) (t : Int) (so : SortAlg)
    (hwf : ∀ p ∈ allProcs s, WFp p) (ht : t ≤ INT_MAX) :
    (get_next_move s t so = none ↔
      (san_all_to_ready s = INT_MAX ∧ san_ready_to_running s t = INT_MAX ∧
       san_running_to_terminated s = INT_MAX ∧
       san_running_to_waiting s t = INT_MAX ∧
       san_waiting_to_ready s = INT_MAX ∧ san_running_to_ready s = INT_MAX)) ∧
    (∀ m t' s', get_next_move s t so = some (m, t', s') →
      t' = min6 s t ∧ s' = apply_move s m t' so ∧
      (allProcs s').length = (allProcs s).length) := by
  constructor
  · have hA := san_all_le (wf_all_sub hwf)
    have hB := san_r2run_le (wf_ready_sub hwf) ht
    have hC := san_r2t_le s
    have hD := san_r2w_le s t
    have hE := san_w2r_le s
    have hF := san_r2r_le s
    rw [gnm_none_iff]
    unfold min6
    omega
  · intro m t' s' h
    obtain ⟨ht', hne, hmin, hs'⟩ := gnm_some_inv h
    refine ⟨ht', hs', ?_⟩
    rw [hs']
    exact length_apply_move s m t' so

/-- Witness for C4 at a concrete well-formed state. -/
theorem C4_advance_total_witness :
    (∀ p ∈ allProcs exS1, WFp p) ∧ (0 : Int) ≤ INT_MAX ∧
    (get_next_move exS1 0 .fcfs = none ↔
      (san_all_to_ready exS1 = INT_MAX ∧ san_ready_to_running exS1 0 = INT_MAX ∧
       san_running_to_terminated exS1 = INT_MAX ∧
       san_running_to_waiting exS1 0 = INT_MAX ∧
       san_waiting_to_ready exS1 = INT_MAX ∧
       san_running_to_ready exS1 = INT_MAX)) :=
  ⟨by unfold WFp; decide, by decide,
    (C4_advance_total exS1 0 .fcfs (by unfold WFp; decide) (by decide)).1⟩

/-! ### Claim C10 -/

/-- C10: when the minimum of the six clamped candidates equals exactly
`INT_MAX`, `get_next_move` reports completion and applies no transition, even
when a genuine event (such as a New-queue head with arrival time `INT_MAX`)
is due then; consequently no fired transition ever carries event time
`INT_MAX` and a process arriving at `INT_MAX` is never scheduled. -/
theorem C10_intmax_boundary (s : QState) (t : Int) (so : SortAlg)
    (hwf : ∀ p ∈ allProcs s, WFp p) (ht : t ≤ INT_MAX) :
    (min6 s t = INT_MAX → get_next_move s t so = none) ∧
    (∀ m t' s', get_next_move s t so = some (m, t', s') → t' < INT_MAX) ∧
    get_next_move c10s0 0 so = none := by
  refine ⟨fun h => gnm_none_iff.mpr h, ?_, ?_⟩
  · intro m t' s' h
    obtain ⟨ht', hne, hmin, _⟩ := gnm_some_inv h
    subst ht'
    have h1 := min6_le_all s t
    have h2 := san_all_le (wf_all_sub hwf)
    omega
  · cases so <;> decide

/-- Witness for C10: a process with arrival time exactly `INT_MAX` is never
scheduled (completion is reported immediately). -/
theorem C10_intmax_boundary_witness :
    (∀ p ∈ allProcs exS1, WFp p) ∧ (0 : Int) ≤ INT_MAX ∧
    get_next_move c10s0 0 .fcfs = none ∧ c10proc.start = INT_MAX :=
  ⟨by unfold WFp; decide, by decide,
    (C10_intmax_boundary exS1 0 .fcfs (by unfold WFp; decide) (by decide)).2.2,
    rfl⟩

/-! ### Claim C5 -/

/-- C5: when the running→waiting transition fires, the moved process's
`remaining` is decreased by exactly its `io_interval` and its
`last_io_started_at` is set to the event time; in the spec's I/O-cycle
scenario (`io_interval = 2`, `total_burst = 10`, `io_duration = 3`) the
process enters Waiting at time 2 with `remaining = 8` and returns to Ready
`io_duration` units later, at time 5. -/
theorem C5_io_bookkeeping :
    (∀ s t so p rest t' s', s.running = p :: rest → WFp p →
      get_next_move s t so = some (.runningToWaiting, t', s') →
      s'.running = rest ∧
      s'.waiting = s.waiting ++
        [{ p with remaining := p.remaining - p.iofreq, last_io_start := t' }]) ∧
    runMoves 4 c5s0 0 .fcfs =
      [(.newToReady, 0), (.readyToRunning, 0), (.runningToWaiting, 2),
       (.waitingToReady, 5)] ∧
    (runState 3 c5s0 0 .fcfs).1.waiting =
      [{ c5proc with remaining := 8, last_io_start := 2 }] := by
  refine ⟨?_, by decide, by decide⟩
  intro s t so p rest t' s' hr hwf h
  obtain ⟨ht', hne, hmin, hs'⟩ := gnm_some_inv h
  obtain ⟨_, _, h3, h4, hf1, hf2, _, _, _, _, hm1, hm2, _, _, _, _⟩ := hwf
  have hwrap : wrap32 (p.remaining - p.iofreq) = p.remaining - p.iofreq := by
    apply wrap32_eq_of_range <;> simp only [IM_eq] at * <;> omega
  subst hs'
  constructor
  · simp only [apply_move]
    rw [hr, exec_runningToWaiting]
  · simp only [apply_move]
    rw [hr, exec_runningToWaiting, hwrap]

/-- Witness for C5 at the scenario's mid-run state. -/
theorem C5_io_bookkeeping_witness :
    c5mid.running = [c5proc] ∧ WFp c5proc ∧
    get_next_move c5mid 0 .fcfs = some (.runningToWaiting, 2, c5aft) ∧
    (c5aft.running = [] ∧
     c5aft.waiting = c5mid.waiting ++
       [{ c5proc with remaining := c5proc.remaining - c5proc.iofreq, last_io_start := 2 }]) :=
  ⟨rfl, by unfold WFp; decide, by decide,
    C5_io_bookkeeping.1 c5mid 0 .fcfs c5proc [] 2 c5aft rfl
      (by unfold WFp; decide) (by decide)⟩

/-! ### Comparator facts and sortedness of the re-sorts -/

theorem sjfLe_trans : ∀ a b c : Process, sjfLe a b → sjfLe b c → sjfLe a c := by
  intro a b c hab hbc
  simp [sjfLe, sort_sjf] at *
  omega

theorem sjfLe_total : ∀ a b : Process, sjfLe a b || sjfLe b a := by
  intro a b
  simp [sjfLe, sort_sjf]
  omega

theorem srtfLe_trans : ∀ a b c : Process, srtfLe a b → srtfLe b c → srtfLe a c := by
  intro a b c hab hbc
  simp [srtfLe, sort_srtf] at *
  omega

theorem srtfLe_total : ∀ a b : Process, srtfLe a b || srtfLe b a := by
  intro a b
  simp [srtfLe, sort_srtf]
  omega

theorem sortedByTotal_mergeSort (l : List Process) :
    sortedByTotal (l.mergeSort sjfLe) := by
  have h := List.sorted_mergeSort sjfLe_trans sjfLe_total l
  refine h.imp ?_
  intro a b hab
  simp [sjfLe, sort_sjf] at hab
  omega

theorem sortedByRemaining_mergeSort (l : List Process) :
    sortedByRemaining (l.mergeSort srtfLe) := by
  have h := List.sorted_mergeSort srtfLe_trans srtfLe_total l
  refine h.imp ?_
  intro a b hab
  simp [srtfLe, sort_srtf] at hab
  omega

/-! ### Claim C6 -/

/-- C6: after an insertion into Ready (new→ready, waiting→ready, running→ready)
the Ready queue is re-sorted by the active comparator exactly under the
shortest-job and shortest-remaining policies; under the arrival-order policy
the queue keeps FIFO-by-insertion order (so a preempted process re-enters at
the tail, the round-robin behaviour); ready→running, running→waiting and
running→terminated are policy-independent and never re-sort. -/
theorem C6_resort_rule :
    (∀ src dst t so,
      execute_move src dst .readyToRunning t so =
        execute_move src dst .readyToRunning t .fcfs ∧
      execute_move src dst .runningToWaiting t so =
        execute_move src dst .runningToWaiting t .fcfs ∧
      execute_move src dst .runningToTerminated t so =
        execute_move src dst .runningToTerminated t .fcfs) ∧
    (∀ p rest dst t,
      execute_move (p :: rest) dst .newToReady t .fcfs = (rest, dst ++ [p]) ∧
      execute_move (p :: rest) dst .waitingToReady t .fcfs = (rest, dst ++ [p]) ∧
      execute_move (p :: rest) dst .runningToReady t .fcfs =
        (rest, dst ++ [{ p with remaining := wrap32 (p.remaining - p.rr) }])) ∧
    (∀ p rest dst t mv, mv = .newToReady ∨ mv = .waitingToReady →
      ((execute_move (p :: rest) dst mv t .sjf).2.Perm (dst ++ [p]) ∧
       sortedByTotal (execute_move (p :: rest) dst mv t .sjf).2 ∧
       (execute_move (p :: rest) dst mv t .srtf).2.Perm (dst ++ [p]) ∧
       sortedByRemaining (execute_move (p :: rest) dst mv t .srtf).2)) ∧
    (∀ p rest dst t,
      (execute_move (p :: rest) dst .runningToReady t .sjf).2.Perm
        (dst ++ [{ p with remaining := wrap32 (p.remaining - p.rr) }]) ∧
      sortedByTotal (execute_move (p :: rest) dst .runningToReady t .sjf).2 ∧
      (execute_move (p :: rest) dst .runningToReady t .srtf).2.Perm
        (dst ++ [{ p with remaining := wrap32 (p.remaining - p.rr) }]) ∧
      sortedByRemaining (execute_move (p :: rest) dst .runningToReady t .srtf).2) := by
  refine ⟨?_, ?_, ?_, ?_⟩
  · intro src dst t so
    refine ⟨?_, ?_, ?_⟩ <;> cases so <;> rfl
  · intro p rest dst t
    refine ⟨?_, ?_, ?_⟩ <;> simp [exec_newToReady, exec_waitingToReady,
      exec_runningToReady, sortIf]
  · intro p rest dst t mv hmv
    rcases hmv with h | h <;> subst h <;>
      refine ⟨?_, ?_, ?_, ?_⟩ <;>
      simp only [exec_newToReady, exec_waitingToReady, sortIf] <;>
      first
        | exact List.mergeSort_perm _ _
        | exact sortedByTotal_mergeSort _
        | exact sortedByRemaining_mergeSort _
  · intro p rest dst t
    refine ⟨?_, ?_, ?_, ?_⟩ <;>
      simp only [exec_runningToReady, sortIf] <;>
      first
        | exact List.mergeSort_perm _ _
        | exact sortedByTotal_mergeSort _
        | exact sortedByRemaining_mergeSort _

/-- Witness for C6: the SJF/SRTF insertion facts at a concrete queue. -/
theorem C6_resort_rule_witness :
    (Move.newToReady = Move.newToReady ∨ Move.newToReady = Move.waitingToReady) ∧
    ((execute_move [exP1] [] .newToReady 0 .sjf).2.Perm ([] ++ [exP1]) ∧
     sortedByTotal (execute_move [exP1] [] .newToReady 0 .sjf).2 ∧
     (execute_move [exP1] [] .newToReady 0 .srtf).2.Perm ([] ++ [exP1]) ∧
     sortedByRemaining (execute_move [exP1] [] .newToReady 0 .srtf).2) :=
  ⟨Or.inl rfl, C6_resort_rule.2.2.1 exP1 [] [] 0 .newToReady (Or.inl rfl)⟩

/-! ### The inductive invariant: initialization and preservation -/

theorem WFp_of_WFinit {p : Process} (h : WFinit p) : WFp p := by
  obtain ⟨h1, h2, h3, h4, h5, h6, h7, h8, h9, h10, h11, h12, h13, h14, h15⟩ := h
  exact ⟨h1, h2, h3, h4, h5, h6, h7, h8, h9, h10, by omega, by omega, h12, h13,
    h14, h15⟩

theorem inv_init {s : QState} (h : InitState s) : Inv s 0 := by
  obtain ⟨hready, hrun, hwait, hterm, hwf, hsorted⟩ := h
  refine ⟨le_refl 0, by simp [IM_eq], ?_, ?_, hsorted, ?_, ?_, ?_, ?_, ?_⟩
  · intro p hp
    simp only [allProcs, hready, hrun, hwait, hterm, List.append_nil] at hp
    exact WFp_of_WFinit (hwf p hp)
  · simp [hrun]
  · intro p rest hcons
    exact (WFp_of_WFinit (hwf p (by simp [hcons]))).1
  · intro p rest hcons
    rw [hrun] at hcons
    exact absurd hcons (by simp)
  · intro p rest hcons
    rw [hrun] at hcons
    exact absurd hcons (by simp)
  · intro p rest hcons
    rw [hrun] at hcons
    exact absurd hcons (by simp)
  · intro p hp
    rw [hterm] at hp
    exact absurd hp (by simp)

theorem min6_le_head_start {s : QState} {t : Int} (hInv : Inv s t) :
    ∀ q rest2, s.all = q :: rest2 → min6 s t ≤ q.start := by
  intro q rest2 h
  have hwfq : WFp q := hInv.wf q (by simp [allProcs, h])
  have hle := min6_le_all s t
  rw [san_all_cons h, sanitize_of_nonneg hwfq.1] at hle
  exact hle

theorem inv_step_newToReady {s : QState} {t : Int} {so : SortAlg}
    (hInv : Inv s t) (hne : min6 s t ≠ INT_MAX)
    (hmin : min6 s t = san_all_to_ready s) :
    Inv (apply_move s .newToReady (min6 s t) so) (min6 s t) := by
  cases hall : s.all with
  | nil => rw [san_all_nil hall] at hmin; exact absurd hmin hne
  | cons p rest =>
  have hwfp : WFp p := hInv.wf p (by simp [allProcs, hall])
  have hm_eq : min6 s t = p.start := by
    rw [hmin, san_all_cons hall, sanitize_of_nonneg hwfp.1]
  have hm0 := min6_nonneg s t
  have hmle : min6 s t ≤ INT_MAX := by rw [hm_eq]; exact hwfp.2.1
  have hstate : apply_move s .newToReady (min6 s t) so =
      ⟨rest, sortIf (s.ready ++ [p]) so, s.running, s.waiting, s.terminated⟩ := by
    simp [apply_move, hall, exec_newToReady]
  rw [hstate]
  have hsort := hInv.all_sorted
  rw [hall, List.pairwise_cons] at hsort
  refine ⟨hm0, hmle, ?_, hInv.run_le_one, hsort.2, ?_, ?_, ?_, ?_, hInv.term_zero⟩
  · intro q hq
    apply hInv.wf
    simp only [allProcs, List.mem_append, mem_sortIf, List.mem_singleton] at hq ⊢
    rw [hall]
    simp only [List.mem_cons]
    tauto
  · intro q rest2 hq
    have hqmem : q ∈ rest := by
      dsimp only at hq
      rw [hq]
      exact List.mem_cons_self _ _
    rw [hm_eq]
    exact hsort.1 q hqmem
  · intro pr rr' hc
    have hc' : s.running = pr :: rr' := hc
    have h := min6_le_r2w s t
    rw [san_r2w_cons hc'] at h
    exact h
  · intro pr rr' hc
    have hc' : s.running = pr :: rr' := hc
    have h := min6_le_r2t s t
    rw [san_r2t_cons hc'] at h
    exact h
  · intro pr rr' hc
    have hc' : s.running = pr :: rr' := hc
    have h := min6_le_r2r s t
    rw [san_r2r_cons hc'] at h
    exact h

theorem inv_step_waitingToReady {s : QState} {t : Int} {so : SortAlg}
    (hInv : Inv s t) (hne : min6 s t ≠ INT_MAX)
    (hmin : min6 s t = san_waiting_to_ready s) :
    Inv (apply_move s .waitingToReady (min6 s t) so) (min6 s t) := by
  cases hw : s.waiting with
  | nil => rw [san_w2r_nil hw] at hmin; exact absurd hmin hne
  | cons p rest =>
  have hm0 := min6_nonneg s t
  have hmle : min6 s t ≤ INT_MAX := hmin ▸ san_w2r_le s
  have hstate : apply_move s .waitingToReady (min6 s t) so =
      ⟨s.all, sortIf (s.ready ++ [p]) so, s.running, rest, s.terminated⟩ := by
    simp [apply_move, hw, exec_waitingToReady]
  rw [hstate]
  refine ⟨hm0, hmle, ?_, hInv.run_le_one, hInv.all_sorted, ?_, ?_, ?_, ?_,
    hInv.term_zero⟩
  · intro q hq
    apply hInv.wf
    simp only [allProcs, List.mem_append, mem_sortIf, List.mem_singleton] at hq ⊢
    rw [hw]
    simp only [List.mem_cons]
    tauto
  · intro q rest2 hq
    exact min6_le_head_start hInv q rest2 hq
  · intro pr rr' hc
    have hc' : s.running = pr :: rr' := hc
    have h := min6_le_r2w s t
    rw [san_r2w_cons hc'] at h
    exact h
  · intro pr rr' hc
    have hc' : s.running = pr :: rr' := hc
    have h := min6_le_r2t s t
    rw [san_r2t_cons hc'] at h
    exact h
  · intro pr rr' hc
    have hc' : s.running = pr :: rr' := hc
    have h := min6_le_r2r s t
    rw [san_r2r_cons hc'] at h
    exact h

theorem inv_step_readyToRunning {s : QState} {t : Int} {so : SortAlg}
    (hInv : Inv s t) (hne : min6 s t ≠ INT_MAX)
    (hmin : min6 s t = san_ready_to_running s t) :
    Inv (apply_move s .readyToRunning (min6 s t) so) (min6 s t) := by
  cases hrd : s.ready with
  | nil => rw [san_r2run_of_ready_nil hrd] at hmin; exact absurd hmin hne
  | cons p rest =>
  cases hrun : s.running with
  | cons q qrest =>
      rw [san_r2run_of_running (by rw [hrun]; simp)] at hmin
      exact absurd hmin hne
  | nil =>
  have hwfp : WFp p := hInv.wf p (by simp [allProcs, hrd])
  obtain ⟨w1, w2, w3, w4, w5, w6, w7, w8, w9, w10, w11, w12, w13, w14, w15, w16⟩ :=
    hwfp
  have hm0 := min6_nonneg s t
  have hm_eq : min6 s t = max t p.start := by
    rw [hmin, san_r2run_cons hrd hrun, sanitize_of_nonneg (le_max_of_le_right w1)]
  have hmle : min6 s t ≤ INT_MAX := by
    rw [hm_eq]
    exact max_le hInv.t_le w2
  have hstate : apply_move s .readyToRunning (min6 s t) so =
      ⟨s.all, rest, [{ p with last_start := min6 s t }], s.waiting,
        s.terminated⟩ := by
    simp [apply_move, hrd, hrun, exec_readyToRunning, set_head_last_start]
  rw [hstate]
  refine ⟨hm0, hmle, ?_, by simp, hInv.all_sorted, ?_, ?_, ?_, ?_, hInv.term_zero⟩
  · intro q hq
    simp only [allProcs, List.mem_append, List.mem_singleton, List.mem_cons,
      List.not_mem_nil, or_false] at hq
    rcases hq with ((((hq | hq) | hq) | hq) | hq)
    · exact hInv.wf q (by simp [allProcs, hq])
    · exact hInv.wf q (by simp [allProcs, hrd ▸ List.mem_cons_of_mem p hq])
    · subst hq
      exact ⟨w1, w2, w3, w4, w5, w6, w7, w8, w9, w10, w11, w12, hm0, hmle, w15,
        w16⟩
    · exact hInv.wf q (by simp [allProcs, hq])
    · exact hInv.wf q (by simp [allProcs, hq])
  · intro q rest2 hq
    exact min6_le_head_start hInv q rest2 hq
  · intro pr rr' hc
    have hc' : ({ p with last_start := min6 s t } :: ([] : List Process)) =
      pr :: rr' := hc
    injection hc' with h1 h2
    subst h1
    dsimp only
    rw [san_wrap_add hm0 hmle (by omega) w6]
    split_ifs <;> omega
  · intro pr rr' hc
    have hc' : ({ p with last_start := min6 s t } :: ([] : List Process)) =
      pr :: rr' := hc
    injection hc' with h1 h2
    subst h1
    dsimp only
    rw [san_wrap_add w11 (by omega) hm0 hmle]
    split_ifs <;> omega
  · intro pr rr' hc
    have hc' : ({ p with last_start := min6 s t } :: ([] : List Process)) =
      pr :: rr' := hc
    injection hc' with h1 h2
    subst h1
    dsimp only
    rw [san_wrap_add hm0 hmle (by omega) w10]
    split_ifs <;> omega

theorem inv_step_runningToWaiting {s : QState} {t : Int} {so : SortAlg}
    (hInv : Inv s t) (hne : min6 s t ≠ INT_MAX)
    (hmin : min6 s t = san_running_to_waiting s t) :
    Inv (apply_move s .runningToWaiting (min6 s t) so) (min6 s t) := by
  cases hrun : s.running with
  | nil => rw [san_r2w_nil hrun] at hmin; exact absurd hmin hne
  | cons p rest =>
  have hrest : rest = [] := by
    have h := hInv.run_le_one
    rw [hrun] at h
    simp only [List.length_cons] at h
    exact List.length_eq_zero.mp (by omega)
  subst hrest
  have hwfp : WFp p := hInv.wf p (by simp [allProcs, hrun])
  obtain ⟨w1, w2, w3, w4, w5, w6, w7, w8, w9, w10, w11, w12, w13, w14, w15, w16⟩ :=
    hwfp
  have hm0 := min6_nonneg s t
  have hsan : san_running_to_waiting s t =
      if INT_MAX < p.last_start + p.iofreq then INT_MAX
      else p.last_start + p.iofreq := by
    rw [san_r2w_cons hrun, san_wrap_add w13 w14 (by omega) w6]
  have hm_eq : min6 s t = p.last_start + p.iofreq ∧
      p.last_start + p.iofreq < INT_MAX := by
    rw [hsan] at hmin
    split_ifs at hmin with hov
    · exact absurd hmin hne
    · refine ⟨hmin, ?_⟩
      rcases lt_or_eq_of_le (not_lt.mp hov) with h | h
      · exact h
      · rw [hmin] at hne
        exact absurd h hne
  have ht2 := min6_le_r2t s t
  rw [san_r2t_cons hrun, san_wrap_add w11 (by omega) w13 w14] at ht2
  have hfr : p.iofreq ≤ p.remaining := by
    obtain ⟨he, hle⟩ := hm_eq
    split_ifs at ht2 with h2 <;> omega
  have hwrap : wrap32 (p.remaining - p.iofreq) = p.remaining - p.iofreq := by
    apply wrap32_eq_of_range <;> simp only [IM_eq] at * <;> omega
  have hstate : apply_move s .runningToWaiting (min6 s t) so =
      ⟨s.all, s.ready, [],
        s.waiting ++
          [{ p with remaining := p.remaining - p.iofreq, last_io_start := min6 s t }],
        s.terminated⟩ := by
    simp [apply_move, hrun, exec_runningToWaiting, hwrap]
  rw [hstate]
  have hmle : min6 s t ≤ INT_MAX := by
    obtain ⟨he, hle⟩ := hm_eq
    omega
  refine ⟨hm0, hmle, ?_, by simp, hInv.all_sorted, ?_, ?_, ?_, ?_, hInv.term_zero⟩
  · intro q hq
    simp only [allProcs, List.mem_append, List.mem_singleton, List.mem_cons,
      List.not_mem_nil, or_false, false_or] at hq
    rcases hq with ((hq | hq) | (hq | hq)) | hq
    · exact hInv.wf q (by simp [allProcs, hq])
    · exact hInv.wf q (by simp [allProcs, hq])
    · exact hInv.wf q (by simp [allProcs, hq])
    · subst hq
      exact ⟨w1, w2, w3, w4, w5, w6, w7, w8, w9, w10, by dsimp only; omega,
        by dsimp only; omega, w13, w14, by dsimp only; omega, by dsimp only; omega⟩
    · exact hInv.wf q (by simp [allProcs, hq])
  · intro q rest2 hq
    exact min6_le_head_start hInv q rest2 hq
  · intro pr rr' hc
    exact absurd hc (by simp)
  · intro pr rr' hc
    exact absurd hc (by simp)
  · intro pr rr' hc
    exact absurd hc (by simp)

theorem inv_step_runningToReady {s : QState} {t : Int} {so : SortAlg}
    (hInv : Inv s t) (hne : min6 s t ≠ INT_MAX)
    (hmin : min6 s t = san_running_to_ready s) :
    Inv (apply_move s .runningToReady (min6 s t) so) (min6 s t) := by
  cases hrun : s.running with
  | nil => rw [san_r2r_nil hrun] at hmin; exact absurd hmin hne
  | cons p rest =>
  have hrest : rest = [] := by
    have h := hInv.run_le_one
    rw [hrun] at h
    simp only [List.length_cons] at h
    exact List.length_eq_zero.mp (by omega)
  subst hrest
  have hwfp : WFp p := hInv.wf p (by simp [allProcs, hrun])
  obtain ⟨w1, w2, w3, w4, w5, w6, w7, w8, w9, w10, w11, w12, w13, w14, w15, w16⟩ :=
    hwfp
  have hm0 := min6_nonneg s t
  have hsan : san_running_to_ready s =
      if INT_MAX < p.last_start + p.rr then INT_MAX else p.last_start + p.rr := by
    rw [san_r2r_cons hrun, san_wrap_add w13 w14 (by omega) w10]
  have hm_eq : min6 s t = p.last_start + p.rr ∧
      p.last_start + p.rr < INT_MAX := by
    rw [hsan] at hmin
    split_ifs at hmin with hov
    · exact absurd hmin hne
    · refine ⟨hmin, ?_⟩
      rcases lt_or_eq_of_le (not_lt.mp hov) with h | h
      · exact h
      · rw [hmin] at hne
        exact absurd h hne
  have ht2 := min6_le_r2t s t
  rw [san_r2t_cons hrun, san_wrap_add w11 (by omega) w13 w14] at ht2
  have hfr : p.rr ≤ p.remaining := by
    obtain ⟨he, hle⟩ := hm_eq
    split_ifs at ht2 with h2 <;> omega
  have hwrap : wrap32 (p.remaining - p.rr) = p.remaining - p.rr := by
    apply wrap32_eq_of_range <;> simp only [IM_eq] at * <;> omega
  have hstate : apply_move s .runningToReady (min6 s t) so =
      ⟨s.all,
        sortIf (s.ready ++ [{ p with remaining := p.remaining - p.rr }]) so,
        [], s.waiting, s.terminated⟩ := by
    simp [apply_move, hrun, exec_runningToReady, hwrap]
  rw [hstate]
  have hmle : min6 s t ≤ INT_MAX := by
    obtain ⟨he, hle⟩ := hm_eq
    omega
  refine ⟨hm0, hmle, ?_, by simp, hInv.all_sorted, ?_, ?_, ?_, ?_, hInv.term_zero⟩
  · intro q hq
    simp only [allProcs, List.mem_append, mem_sortIf, List.mem_singleton,
      List.mem_cons, List.not_mem_nil, or_false, false_or] at hq
    rcases hq with ((hq | (hq | hq)) | hq) | hq
    · exact hInv.wf q (by simp [allProcs, hq])
    · exact hInv.wf q (by simp [allProcs, hq])
    · subst hq
      exact ⟨w1, w2, w3, w4, w5, w6, w7, w8, w9, w10, by dsimp only; omega,
        by dsimp only; omega, w13, w14, w15, w16⟩
    · exact hInv.wf q (by simp [allProcs, hq])
    · exact hInv.wf q (by simp [allProcs, hq])
  · intro q rest2 hq
    exact min6_le_head_start hInv q rest2 hq
  · intro pr rr' hc
    exact absurd hc (by simp)
  · intro pr rr' hc
    exact absurd hc (by simp)
  · intro pr rr' hc
    exact absurd hc (by simp)

theorem inv_step_runningToTerminated {s : QState} {t : Int} {so : SortAlg}
    (hInv : Inv s t) (hne : min6 s t ≠ INT_MAX)
    (hmin : min6 s t = san_running_to_terminated s) :
    Inv (apply_move s .runningToTerminated (min6 s t) so) (min6 s t) := by
  cases hrun : s.running with
  | nil => rw [san_r2t_nil hrun] at hmin; exact absurd hmin hne
  | cons p rest =>
  have hrest : rest = [] := by
    have h := hInv.run_le_one
    rw [hrun] at h
    simp only [List.length_cons] at h
    exact List.length_eq_zero.mp (by omega)
  subst hrest
  have hwfp : WFp p := hInv.wf p (by simp [allProcs, hrun])
  obtain ⟨w1, w2, w3, w4, w5, w6, w7, w8, w9, w10, w11, w12, w13, w14, w15, w16⟩ :=
    hwfp
  have hm0 := min6_nonneg s t
  have hmle : min6 s t ≤ INT_MAX := hmin ▸ san_r2t_le s
  have hstate : apply_move s .runningToTerminated (min6 s t) so =
      ⟨s.all, s.ready, [], s.waiting,
        s.terminated ++ [{ p with remaining := 0 }]⟩ := by
    simp [apply_move, hrun, exec_runningToTerminated]
  rw [hstate]
  refine ⟨hm0, hmle, ?_, by simp, hInv.all_sorted, ?_, ?_, ?_, ?_, ?_⟩
  · intro q hq
    simp only [allProcs, List.mem_append, List.mem_singleton, List.mem_cons,
      List.not_mem_nil, or_false, false_or] at hq
    rcases hq with ((hq | hq) | hq) | (hq | hq)
    · exact hInv.wf q (by simp [allProcs, hq])
    · exact hInv.wf q (by simp [allProcs, hq])
    · exact hInv.wf q (by simp [allProcs, hq])
    · exact hInv.wf q (by simp [allProcs, hq])
    · subst hq
      exact ⟨w1, w2, w3, w4, w5, w6, w7, w8, w9, w10, by dsimp only; omega,
        by dsimp only; omega, w13, w14, w15, w16⟩
  · intro q rest2 hq
    exact min6_le_head_start hInv q rest2 hq
  · intro pr rr' hc
    exact absurd hc (by simp)
  · intro pr rr' hc
    exact absurd hc (by simp)
  · intro pr rr' hc
    exact absurd hc (by simp)
  · intro q hq
    simp only [List.mem_append, List.mem_singleton] at hq
    rcases hq with hq | hq
    · exact hInv.term_zero q hq
    · subst hq
      rfl

theorem inv_step {s : QState} {t : Int} {so : SortAlg} {m : Move} {t' : Int}
    {s' : QState} (hInv : Inv s t)
    (h : get_next_move s t so = some (m, t', s')) : Inv s' t' := by
  obtain ⟨ht', hne, hmin, hs'⟩ := gnm_some_inv h
  subst ht'
  subst hs'
  cases m with
  | newToReady => exact inv_step_newToReady hInv hne hmin
  | readyToRunning => exact inv_step_readyToRunning hInv hne hmin
  | runningToTerminated => exact inv_step_runningToTerminated hInv hne hmin
  | runningToWaiting => exact inv_step_runningToWaiting hInv hne hmin
  | waitingToReady => exact inv_step_waitingToReady hInv hne hmin
  | runningToReady => exact inv_step_runningToReady hInv hne hmin

theorem reachable_inv {so : SortAlg} {s : QState} {t : Int}
    (h : Reachable so s t) : Inv s t := by
  induction h with
  | init h0 => exact inv_init h0
  | step hr hstep ih => exact inv_step ih hstep

theorem reachable_runState_aux (so : SortAlg) (n : Nat) :
    ∀ s t, Reachable so s t →
      Reachable so (runState n s t so).1 (runState n s t so).2 := by
  induction n with
  | zero => intro s t h; exact h
  | succ k ih =>
      intro s t h
      unfold runState
      cases hg : get_next_move s t so with
      | none => exact h
      | some r =>
          obtain ⟨m, t', s'⟩ := r
          exact ih s' t' (Reachable.step h hg)

theorem step_remaining_mono {s : QState} {t : Int} {so : SortAlg} {m : Move}
    {t' : Int} {s' : QState} (hInv : Inv s t)
    (h : get_next_move s t so = some (m, t', s')) :
    ∀ q ∈ allProcs s', ∃ q0 ∈ allProcs s,
      q0.pid = q.pid ∧ q0.total = q.total ∧ q.remaining ≤ q0.remaining := by
  obtain ⟨ht', hne, hmin, hs'⟩ := gnm_some_inv h
  subst ht'
  subst hs'
  cases m with
  | newToReady =>
      have hmin' : min6 s t = san_all_to_ready s := hmin
      cases hall : s.all with
      | nil => rw [san_all_nil hall] at hmin'; exact absurd hmin' hne
      | cons p rest =>
      have hstate : apply_move s .newToReady (min6 s t) so =
          ⟨rest, sortIf (s.ready ++ [p]) so, s.running, s.waiting,
            s.terminated⟩ := by
        simp [apply_move, hall, exec_newToReady]
      rw [hstate]
      intro q hq
      refine ⟨q, ?_, rfl, rfl, le_refl _⟩
      simp only [allProcs, List.mem_append, mem_sortIf, List.mem_singleton] at hq ⊢
      rw [hall]
      simp only [List.mem_cons]
      tauto
  | waitingToReady =>
      have hmin' : min6 s t = san_waiting_to_ready s := hmin
      cases hw : s.waiting with
      | nil => rw [san_w2r_nil hw] at hmin'; exact absurd hmin' hne
      | cons p rest =>
      have hstate : apply_move s .waitingToReady (min6 s t) so =
          ⟨s.all, sortIf (s.ready ++ [p]) so, s.running, rest, s.terminated⟩ := by
        simp [apply_move, hw, exec_waitingToReady]
      rw [hstate]
      intro q hq
      refine ⟨q, ?_, rfl, rfl, le_refl _⟩
      simp only [allProcs, List.mem_append, mem_sortIf, List.mem_singleton] at hq ⊢
      rw [hw]
      simp only [List.mem_cons]
      tauto
  | readyToRunning =>
      have hmin' : min6 s t = san_ready_to_running s t := hmin
      cases hrd : s.ready with
      | nil => rw [san_r2run_of_ready_nil hrd] at hmin'; exact absurd hmin' hne
      | cons p rest =>
      cases hrun : s.running with
      | cons q qrest =>
          rw [san_r2run_of_running (by rw [hrun]; simp)] at hmin'
          exact absurd hmin' hne
      | nil =>
      have hstate : apply_move s .readyToRunning (min6 s t) so =
          ⟨s.all, rest, [{ p with last_start := min6 s t }], s.waiting,
            s.terminated⟩ := by
        simp [apply_move, hrd, hrun, exec_readyToRunning, set_head_last_start]
      rw [hstate]
      intro q hq
      simp only [allProcs, List.mem_append, List.mem_singleton, List.mem_cons,
        List.not_mem_nil, or_false] at hq
      rcases hq with ((((hq | hq) | hq) | hq) | hq)
      · exact ⟨q, by simp [allProcs, hq], rfl, rfl, le_refl _⟩
      · exact ⟨q, by simp [allProcs, hrd ▸ List.mem_cons_of_mem p hq], rfl, rfl,
          le_refl _⟩
      · subst hq
        exact ⟨p, by simp [allProcs, hrd ▸ List.mem_cons_self p rest], rfl, rfl,
          le_refl _⟩
      · exact ⟨q, by simp [allProcs, hq], rfl, rfl, le_refl _⟩
      · exact ⟨q, by simp [allProcs, hq], rfl, rfl, le_refl _⟩
  | runningToTerminated =>
      have hmin' : min6 s t = san_running_to_terminated s := hmin
      cases hrun : s.running with
      | nil => rw [san_r2t_nil hrun] at hmin'; exact absurd hmin' hne
      | cons p rest =>
      have hrest : rest = [] := by
        have hl := hInv.run_le_one
        rw [hrun] at hl
        simp only [List.length_cons] at hl
        exact List.length_eq_zero.mp (by omega)
      subst hrest
      have hwfp : WFp p := hInv.wf p (by simp [allProcs, hrun])
      obtain ⟨w1, w2, w3, w4, w5, w6, w7, w8, w9, w10, w11, w12, w13, w14, w15,
        w16⟩ := hwfp
      have hstate : apply_move s .runningToTerminated (min6 s t) so =
          ⟨s.all, s.ready, [], s.waiting,
            s.terminated ++ [{ p with remaining := 0 }]⟩ := by
        simp [apply_move, hrun, exec_runningToTerminated]
      rw [hstate]
      intro q hq
      simp only [allProcs, List.mem_append, List.mem_singleton, List.mem_cons,
        List.not_mem_nil, or_false, false_or] at hq
      rcases hq with ((hq | hq) | hq) | (hq | hq)
      · exact ⟨q, by simp [allProcs, hq], rfl, rfl, le_refl _⟩
      · exact ⟨q, by simp [allProcs, hq], rfl, rfl, le_refl _⟩
      · exact ⟨q, by simp [allProcs, hq], rfl, rfl, le_refl _⟩
      · exact ⟨q, by simp [allProcs, hq], rfl, rfl, le_refl _⟩
      · subst hq
        exact ⟨p, by simp [allProcs, hrun ▸ List.mem_cons_self p []], rfl, rfl,
          by dsimp only; omega⟩
  | runningToWaiting =>
      have hmin' : min6 s t = san_running_to_waiting s t := hmin
      cases hrun : s.running with
      | nil => rw [san_r2w_nil hrun] at hmin'; exact absurd hmin' hne
      | cons p rest =>
      have hrest : rest = [] := by
        have hl := hInv.run_le_one
        rw [hrun] at hl
        simp only [List.length_cons] at hl
        exact List.length_eq_zero.mp (by omega)
      subst hrest
      have hwfp : WFp p := hInv.wf p (by simp [allProcs, hrun])
      obtain ⟨w1, w2, w3, w4, w5, w6, w7, w8, w9, w10, w11, w12, w13, w14, w15,
        w16⟩ := hwfp
      have hsan : san_running_to_waiting s t =
          if INT_MAX < p.last_start + p.iofreq then INT_MAX
          else p.last_start + p.iofreq := by
        rw [san_r2w_cons hrun, san_wrap_add w13 w14 (by omega) w6]
      have hm_eq : min6 s t = p.last_start + p.iofreq := by
        rw [hsan] at hmin'
        split_ifs at hmin' with hov
        · exact absurd hmin' hne
        · exact hmin'
      have ht2 := min6_le_r2t s t
      rw [san_r2t_cons hrun, san_wrap_add w11 (by omega) w13 w14] at ht2
      have hfr : p.iofreq ≤ p.remaining := by
        rw [hsan] at hmin'
        split_ifs at hmin' with hov
        · exact absurd hmin' hne
        · split_ifs at ht2 with h2 <;> omega
      have hwrap : wrap32 (p.remaining - p.iofreq) = p.remaining - p.iofreq := by
        apply wrap32_eq_of_range <;> simp only [IM_eq] at * <;> omega
      have hstate : apply_move s .runningToWaiting (min6 s t) so =
          ⟨s.all, s.ready, [],
            s.waiting ++
              [{ p with remaining := p.remaining - p.iofreq, last_io_start := min6 s t }],
            s.terminated⟩ := by
        simp [apply_move, hrun, exec_runningToWaiting, hwrap]
      rw [hstate]
      intro q hq
      simp only [allProcs, List.mem_append, List.mem_singleton, List.mem_cons,
        List.not_mem_nil, or_false, false_or] at hq
      rcases hq with ((hq | hq) | (hq | hq)) | hq
      · exact ⟨q, by simp [allProcs, hq], rfl, rfl, le_refl _⟩
      · exact ⟨q, by simp [allProcs, hq], rfl, rfl, le_refl _⟩
      · exact ⟨q, by simp [allProcs, hq], rfl, rfl, le_refl _⟩
      · subst hq
        exact ⟨p, by simp [allProcs, hrun ▸ List.mem_cons_self p []], rfl, rfl,
          by dsimp only; omega⟩
      · exact ⟨q, by simp [allProcs, hq], rfl, rfl, le_refl _⟩
  | runningToReady =>
      have hmin' : min6 s t = san_running_to_ready s := hmin
      cases hrun : s.running with
      | nil => rw [san_r2r_nil hrun] at hmin'; exact absurd hmin' hne
      | cons p rest =>
      have hrest : rest = [] := by
        have hl := hInv.run_le_one
        rw [hrun] at hl
        simp only [List.length_cons] at hl
        exact List.length_eq_zero.mp (by omega)
      subst hrest
      have hwfp : WFp p := hInv.wf p (by simp [allProcs, hrun])
      obtain ⟨w1, w2, w3, w4, w5, w6, w7, w8, w9, w10, w11, w12, w13, w14, w15,
        w16⟩ := hwfp
      have hsan : san_running_to_ready s =
          if INT_MAX < p.last_start + p.rr then INT_MAX
          else p.last_start + p.rr := by
        rw [san_r2r_cons hrun, san_wrap_add w13 w14 (by omega) w10]
      have hm_eq : min6 s t = p.last_start + p.rr := by
        rw [hsan] at hmin'
        split_ifs at hmin' with hov
        · exact absurd hmin' hne
        · exact hmin'
      have ht2 := min6_le_r2t s t
      rw [san_r2t_cons hrun, san_wrap_add w11 (by omega) w13 w14] at ht2
      have hfr : p.rr ≤ p.remaining := by
        rw [hsan] at hmin'
        split_ifs at hmin' with hov
        · exact absurd hmin' hne
        · split_ifs at ht2 with h2 <;> omega
      have hwrap : wrap32 (p.remaining - p.rr) = p.remaining - p.rr := by
        apply wrap32_eq_of_range <;> simp only [IM_eq] at * <;> omega
      have hstate : apply_move s .runningToReady (min6 s t) so =
          ⟨s.all,
            sortIf (s.ready ++ [{ p with remaining := p.remaining - p.rr }]) so,
            [], s.waiting, s.terminated⟩ := by
        simp [apply_move, hrun, exec_runningToReady, hwrap]
      rw [hstate]
      intro q hq
      simp only [allProcs, List.mem_append, mem_sortIf, List.mem_singleton,
        List.mem_cons, List.not_mem_nil, or_false, false_or] at hq
      rcases hq with ((hq | (hq | hq)) | hq) | hq
      · exact ⟨q, by simp [allProcs, hq], rfl, rfl, le_refl _⟩
      · exact ⟨q, by simp [allProcs, hq], rfl, rfl, le_refl _⟩
      · subst hq
        exact ⟨p, by simp [allProcs, hrun ▸ List.mem_cons_self p []], rfl, rfl,
          by dsimp only; omega⟩
      · exact ⟨q, by simp [allProcs, hq], rfl, rfl, le_refl _⟩
      · exact ⟨q, by simp [allProcs, hq], rfl, rfl, le_refl _⟩

/-! ### Claim C7 -/

/-- C7: in every state reachable from a well-formed initial state the Running
queue holds at most one process, and the only transition inserting into
Running (ready→running) is a candidate only while Running is empty: with
Running non-empty its clamped candidate is the `INT_MAX` sentinel. -/
theorem C7_running_bound (so : SortAlg) (s : QState) (t : Int)
    (h : Reachable so s t) :
    s.running.length ≤ 1 ∧
    (s.running ≠ [] → san_ready_to_running s t = INT_MAX) :=
  ⟨(reachable_inv h).run_le_one, fun hne => san_r2run_of_running hne⟩

/-- Witness for C7 at a concrete initial state. -/
theorem C7_running_bound_witness :
    InitState exS1 ∧ exS1.running.length ≤ 1 ∧
      (exS1.running ≠ [] → san_ready_to_running exS1 0 = INT_MAX) :=
  ⟨by unfold InitState WFinit; decide,
    C7_running_bound .fcfs exS1 0
      (Reachable.init (by unfold InitState WFinit; decide))⟩

/-! ### Claim C8 -/

/-- C8 counterexample: with `io_interval = total_burst = 4` the I/O boundary
and the completion boundary coincide and the tie-break fires running→waiting
first, so after three steps the process sits in the Waiting queue with
`remaining = 0` — a reachable state in which `remaining_burst = 0` does not
imply membership in Terminated, refuting the claim's "exactly when". -/
theorem C8_counterexample :
    InitState c8s0 ∧
    Reachable .fcfs (runState 3 c8s0 0 .fcfs).1 (runState 3 c8s0 0 .fcfs).2 ∧
    (runState 3 c8s0 0 .fcfs).1.waiting =
      [{ c8proc with remaining := 0, last_io_start := 4 }] ∧
    (runState 3 c8s0 0 .fcfs).1.terminated = [] ∧
    ¬ (∀ p ∈ allProcs (runState 3 c8s0 0 .fcfs).1,
        p.remaining = 0 → p ∈ (runState 3 c8s0 0 .fcfs).1.terminated) := by
  refine ⟨?_, ?_, by decide, by decide, ?_⟩
  · unfold InitState WFinit
    decide
  · exact reachable_runState_aux .fcfs 3 c8s0 0
      (Reachable.init (by unfold InitState WFinit; decide))
  · intro hcl
    exact absurd
      (hcl { c8proc with remaining := 0, last_io_start := 4 } (by decide) (by decide))
      (by decide)

/-- C8 (amended): `remaining_burst` is initialized to `total_burst`, satisfies
`0 ≤ remaining ≤ total` for every process in every reachable state, equals 0
for every process in the Terminated queue, and never increases across an
advance step; however — unlike the original claim — it can also reach 0
without entering Terminated, when `io_interval` (or the quantum) exactly
equals the remaining burst at a boundary the tie-break resolves away from
running→terminated. -/
theorem C8_remaining_invariants (so : SortAlg) (s : QState) (t : Int)
    (h : Reachable so s t) :
    (∀ pid st tot f d r, (process_new pid st tot f d r).remaining = tot) ∧
    (∀ p ∈ allProcs s, 0 ≤ p.remaining ∧ p.remaining ≤ p.total) ∧
    (∀ p ∈ s.terminated, p.remaining = 0) ∧
    (∀ m t' s', get_next_move s t so = some (m, t', s') →
      ∀ q ∈ allProcs s', ∃ q0 ∈ allProcs s,
        q0.pid = q.pid ∧ q0.total = q.total ∧ q.remaining ≤ q0.remaining) := by
  have hInv := reachable_inv h
  refine ⟨fun _ _ _ _ _ _ => rfl, ?_, hInv.term_zero,
    fun m t' s' hs => step_remaining_mono hInv hs⟩
  intro p hp
  obtain ⟨_, _, _, _, _, _, _, _, _, _, h11, h12, _, _, _, _⟩ := hInv.wf p hp
  exact ⟨h11, h12⟩

/-- Witness for the amended C8 at a concrete initial state. -/
theorem C8_remaining_invariants_witness :
    InitState exS1 ∧
    (∀ p ∈ allProcs exS1, 0 ≤ p.remaining ∧ p.remaining ≤ p.total) :=
  ⟨by unfold InitState WFinit; decide,
    (C8_remaining_invariants .fcfs exS1 0
      (Reachable.init (by unfold InitState WFinit; decide))).2.1⟩

/-! ### Claim C9 -/

/-- C9 counterexample: a two-process run (FIFO Waiting queue whose head has a
long `io_duration` while a later process has a short one) in which successive
event times returned by `get_next_move` are 101 and then 4 — the sequence of
event times is not non-decreasing. -/
theorem C9_counterexample :
    InitState c9s0 ∧
    eventTimes 8 c9s0 0 .fcfs = [0, 0, 1, 1, 1, 3, 101, 4] ∧
    ¬ nonDecreasing (eventTimes 8 c9s0 0 .fcfs) := by
  refine ⟨?_, by decide, ?_⟩
  · unfold InitState WFinit
    decide
  · intro h
    rw [show eventTimes 8 c9s0 0 .fcfs = [0, 0, 1, 1, 1, 3, 101, 4] from
      by decide] at h
    unfold nonDecreasing at h
    simp [List.chain'_cons] at h

/-- C9 (amended): along any run from a well-formed initial state, every
advance step that fires a move other than waiting→ready returns an event time
`≥` the current time; event times can decrease only across waiting→ready
events (a non-head Waiting process whose I/O completion lies in the past). -/
theorem C9_monotone_except_waiting (so : SortAlg) (s : QState) (t : Int)
    (h : Reachable so s t) :
    ∀ m t' s', get_next_move s t so = some (m, t', s') →
      m ≠ .waitingToReady → t ≤ t' := by
  intro m t' s' hstep hnw
  have hInv := reachable_inv h
  obtain ⟨ht', hne, hmin, _⟩ := gnm_some_inv hstep
  subst ht'
  cases m with
  | waitingToReady => exact absurd rfl hnw
  | newToReady =>
      have hmin' : min6 s t = san_all_to_ready s := hmin
      cases hall : s.all with
      | nil => rw [san_all_nil hall] at hmin'; exact absurd hmin' hne
      | cons p rest =>
          have h1 := hInv.all_head p rest hall
          have hwfp : WFp p := hInv.wf p (by simp [allProcs, hall])
          rw [san_all_cons hall, sanitize_of_nonneg hwfp.1] at hmin'
          omega
  | readyToRunning =>
      have hmin' : min6 s t = san_ready_to_running s t := hmin
      cases hrd : s.ready with
      | nil => rw [san_r2run_of_ready_nil hrd] at hmin'; exact absurd hmin' hne
      | cons p rest =>
      cases hrun : s.running with
      | cons q qrest =>
          rw [san_r2run_of_running (by rw [hrun]; simp)] at hmin'
          exact absurd hmin' hne
      | nil =>
          have hwfp : WFp p := hInv.wf p (by simp [allProcs, hrd])
          rw [san_r2run_cons hrd hrun,
            sanitize_of_nonneg (le_max_of_le_right hwfp.1)] at hmin'
          rw [hmin']
          exact le_max_left _ _
  | runningToWaiting =>
      have hmin' : min6 s t = san_running_to_waiting s t := hmin
      cases hrun : s.running with
      | nil => rw [san_r2w_nil hrun] at hmin'; exact absurd hmin' hne
      | cons p rest =>
          have h1 := hInv.run_iofreq p rest hrun
          rw [san_r2w_cons hrun] at hmin'
          omega
  | runningToTerminated =>
      have hmin' : min6 s t = san_running_to_terminated s := hmin
      cases hrun : s.running with
      | nil => rw [san_r2t_nil hrun] at hmin'; exact absurd hmin' hne
      | cons p rest =>
          have h1 := hInv.run_term p rest hrun
          rw [san_r2t_cons hrun] at hmin'
          omega
  | runningToReady =>
      have hmin' : min6 s t = san_running_to_ready s := hmin
      cases hrun : s.running with
      | nil => rw [san_r2r_nil hrun] at hmin'; exact absurd hmin' hne
      | cons p rest =>
          have h1 := hInv.run_rr p rest hrun
          rw [san_r2r_cons hrun] at hmin'
          omega

/-- Witness for the amended C9 at a concrete initial state and first step. -/
theorem C9_monotone_except_waiting_witness :
    InitState exS1 ∧
    get_next_move exS1 0 .fcfs =
      some (.newToReady, 0, ⟨[], [exP1], [], [], []⟩) ∧
    Move.newToReady ≠ Move.waitingToReady ∧ (0 : Int) ≤ 0 :=
  ⟨by unfold InitState WFinit; decide, by decide, by decide,
    C9_monotone_except_waiting .fcfs exS1 0
      (Reachable.init (by unfold InitState WFinit; decide)) .newToReady 0
      ⟨[], [exP1], [], [], []⟩ (by decide) (by decide)⟩

end Scheduler
